import Mathlib

/-!
Verification of the BSE (Bethe-Salpeter) exciton core declared in
`src/include/GExciton.hpp`.  The repository ships only the class
declaration; every method body lives outside `src/`, so the operations
are modelled from the specification (`spec.md`), faithful to its words,
and the theorems are settled against those models.  Machine doubles are
embedded as exact rationals; complex numbers as pairs of rationals.
-/

/-- A complex number with rational real and imaginary parts, embedding the
`std::complex<double>` values the C++ code manipulates. -/
structure Cplx where
  re : ℚ
  im : ℚ
  deriving DecidableEq, Repr

namespace Cplx

def ofRat (q : ℚ) : Cplx := ⟨q, 0⟩

instance : Zero Cplx := ⟨⟨0, 0⟩⟩
instance : One Cplx := ⟨⟨1, 0⟩⟩

instance : Add Cplx := ⟨fun a b => ⟨a.re + b.re, a.im + b.im⟩⟩
instance : Neg Cplx := ⟨fun a => ⟨-a.re, -a.im⟩⟩
instance : Sub Cplx := ⟨fun a b => ⟨a.re - b.re, a.im - b.im⟩⟩
instance : Mul Cplx := ⟨fun a b => ⟨a.re * b.re - a.im * b.im, a.re * b.im + a.im * b.re⟩⟩

/-- Complex conjugate. -/
def conj (a : Cplx) : Cplx := ⟨a.re, -a.im⟩

@[simp] lemma conj_re (a : Cplx) : (conj a).re = a.re := rfl
@[simp] lemma conj_im (a : Cplx) : (conj a).im = -a.im := rfl
@[simp] lemma add_re (a b : Cplx) : (a + b).re = a.re + b.re := rfl
@[simp] lemma add_im (a b : Cplx) : (a + b).im = a.im + b.im := rfl
@[simp] lemma sub_re (a b : Cplx) : (a - b).re = a.re - b.re := rfl
@[simp] lemma sub_im (a b : Cplx) : (a - b).im = a.im - b.im := rfl
@[simp] lemma neg_re (a : Cplx) : (-a).re = -a.re := rfl
@[simp] lemma neg_im (a : Cplx) : (-a).im = -a.im := rfl
@[simp] lemma mul_re (a b : Cplx) : (a * b).re = a.re * b.re - a.im * b.im := rfl
@[simp] lemma mul_im (a b : Cplx) : (a * b).im = a.re * b.im + a.im * b.re := rfl
@[simp] lemma zero_re : (0 : Cplx).re = 0 := rfl
@[simp] lemma zero_im : (0 : Cplx).im = 0 := rfl
@[simp] lemma one_re : (1 : Cplx).re = 1 := rfl
@[simp] lemma one_im : (1 : Cplx).im = 0 := rfl

lemma ext_c {a b : Cplx} (hre : a.re = b.re) (him : a.im = b.im) : a = b := by
  cases a; cases b; simp_all

lemma eq_iff (a b : Cplx) : a = b ↔ a.re = b.re ∧ a.im = b.im := by
  constructor
  · intro h; subst h; exact ⟨rfl, rfl⟩
  · intro h; exact ext_c h.1 h.2

@[simp] lemma conj_conj (a : Cplx) : conj (conj a) = a := by
  apply ext_c <;> simp

@[simp] lemma conj_ofRat (q : ℚ) : conj (ofRat q) = ofRat q := by
  apply ext_c <;> simp [ofRat]

lemma conj_add (a b : Cplx) : conj (a + b) = conj a + conj b := by
  apply ext_c <;> simp <;> ring

lemma conj_neg (a : Cplx) : conj (-a) = -(conj a) := by
  apply ext_c <;> simp

lemma conj_sub (a b : Cplx) : conj (a - b) = conj a - conj b := by
  apply ext_c <;> simp <;> ring

lemma conj_mul (a b : Cplx) : conj (a * b) = conj a * conj b := by
  apply ext_c <;> simp <;> ring

@[simp] lemma conj_zero : conj (0 : Cplx) = 0 := by
  apply ext_c <;> simp

end Cplx

/-- Conjugate-linear dot product on coefficient vectors, the embedding of
`arma::cdot` used for Bloch-coefficient overlaps. -/
def cdot : List Cplx → List Cplx → Cplx
  | [], _ => 0
  | _ :: _, [] => 0
  | a :: as, b :: bs => Cplx.conj a * b + cdot as bs

lemma cdot_swap (a b : List Cplx) : cdot b a = Cplx.conj (cdot a b) := by
  induction a generalizing b with
  | nil =>
    cases b <;> simp [cdot]
  | cons x xs ih =>
    cases b with
    | nil => simp [cdot]
    | cons y ys =>
      simp only [cdot, Cplx.conj_add, Cplx.conj_mul, Cplx.conj_conj, ih ys]
      apply Cplx.ext_c <;> simp <;> ring

/-!
## HamiltonianAssembler (claims C1 and C4)

Modelled from the spec: the bodies of `BShamiltonian` (declared at
`GExciton.hpp:159`) are not in `src/`.  Spec 4.5: "diagonal entries are
the single-particle pair energy for each basis state; off-diagonal
entries (i,j) are −(direct(i,j) − exchange(i,j)).  The matrix is filled
by computing one triangle and mirroring the conjugate-transpose into the
other."  The pair energies and the two interaction kernels are
parameters of the model (they are produced by the MatrixElementEngine).
-/

/-- The inputs of the Hamiltonian assembly for a basis of `n` pair states:
real single-particle pair energies and the direct / exchange kernels. -/
structure BSEKernels (n : ℕ) where
  pairE : Fin n → ℚ
  direct : Fin n → Fin n → Cplx
  exch : Fin n → Fin n → Cplx

/-- Modelled from the spec: `BShamiltonian` fills the dense BSE matrix,
computing the upper triangle and mirroring its conjugate into the lower
one; the diagonal holds the (real) single-particle pair energies. -/
def BShamiltonian {n : ℕ} (K : BSEKernels n) (i j : Fin n) : Cplx :=
  if i = j then Cplx.ofRat (K.pairE i)
  else if (i : ℕ) < (j : ℕ) then -(K.direct i j - K.exch i j)
  else Cplx.conj (-(K.direct j i - K.exch j i))

/-- C1: the assembled BSE matrix is Hermitian exactly, by construction:
the lower triangle is the conjugate mirror of the computed upper
triangle and the diagonal is real. -/
theorem BShamiltonian_hermitian {n : ℕ} (K : BSEKernels n) (i j : Fin n) :
    BShamiltonian K j i = Cplx.conj (BShamiltonian K i j) := by
  unfold BShamiltonian
  rcases lt_trichotomy (i : ℕ) (j : ℕ) with h | h | h
  · have hne : i ≠ j := by
      intro he; exact absurd (congrArg (fun x : Fin n => (x : ℕ)) he) (Nat.ne_of_lt h)
    have hne2 : j ≠ i := fun he => hne he.symm
    have hnl : ¬ (j : ℕ) < (i : ℕ) := Nat.not_lt.mpr (Nat.le_of_lt h)
    simp [hne, hne2, h, hnl]
  · have he : i = j := Fin.ext h
    simp [he]
  · have hne : i ≠ j := by
      intro he; exact absurd (congrArg (fun x : Fin n => (x : ℕ)) he) (Nat.ne_of_gt h)
    have hne2 : j ≠ i := fun he => hne he.symm
    have hnl : ¬ (i : ℕ) < (j : ℕ) := Nat.not_lt.mpr (Nat.le_of_lt h)
    simp [hne, hne2, h, hnl]

/-- C4: the diagonal of the assembled matrix is the single-particle pair
energy, and every off-diagonal entry (i,j), mirrored or not, equals
−(direct(i,j) − exchange(i,j)); the mirrored triangle agrees with this
because the interaction kernels are Hermitian. -/
theorem BShamiltonian_entries {n : ℕ} (K : BSEKernels n)
    (hD : ∀ i j, K.direct j i = Cplx.conj (K.direct i j))
    (hX : ∀ i j, K.exch j i = Cplx.conj (K.exch i j)) :
    (∀ i, BShamiltonian K i i = Cplx.ofRat (K.pairE i)) ∧
    (∀ i j, i ≠ j → BShamiltonian K i j = -(K.direct i j - K.exch i j)) := by
  constructor
  · intro i; simp [BShamiltonian]
  · intro i j hne
    unfold BShamiltonian
    rcases lt_trichotomy (i : ℕ) (j : ℕ) with h | h | h
    · simp [hne, h]
    · exact absurd (Fin.ext h) hne
    · have hnl : ¬ (i : ℕ) < (j : ℕ) := Nat.not_lt.mpr (Nat.le_of_lt h)
      have hDij : Cplx.conj (K.direct j i) = K.direct i j := by
        rw [hD i j, Cplx.conj_conj]
      have hXij : Cplx.conj (K.exch j i) = K.exch i j := by
        rw [hX i j, Cplx.conj_conj]
      simp only [hne, if_false, hnl, Cplx.conj_neg, Cplx.conj_sub, hDij, hXij]

/-- Concrete 2×2 kernel instance with Hermitian (real constant) kernels,
used to witness the entry-value theorem. -/
def witnessK : BSEKernels 2 :=
  ⟨fun _ => 3, fun _ _ => ⟨1, 0⟩, fun _ _ => 0⟩

theorem BShamiltonian_entries_witness :
    (∀ i, BShamiltonian witnessK i i = Cplx.ofRat (witnessK.pairE i)) ∧
    (∀ i j, i ≠ j →
      BShamiltonian witnessK i j = -(witnessK.direct i j - witnessK.exch i j)) :=
  BShamiltonian_entries witnessK (by decide) (by decide)

/-!
## BasisBuilder (claim C3)

Modelled from the spec: the bodies of `createBasis` (`GExciton.hpp:153`)
and `useSpinfulBasis` (`GExciton.hpp:155`) are not in `src/`.  Spec 3:
"BasisState: tuple (mesh index of k, valence band, conduction band[,
spin]).  Basis: ordered sequence of BasisState with no duplicates;
dimension N = |Mesh| × |valenceBands| × |conductionBands| × (2 if
spin-resolved else 1)."
-/

/-- Modelled from the spec: `createBasis` enumerates one pair state per
(mesh point, valence band, conduction band) triple, in order. -/
def createBasis (nk : ℕ) (valenceBands conductionBands : List ℤ) :
    List (ℕ × ℤ × ℤ) :=
  (List.range nk).bind fun k =>
    valenceBands.bind fun v =>
      conductionBands.map fun c => (k, v, c)

/-- Modelled from the spec: `useSpinfulBasis` doubles every pair state
with an explicit spin label. -/
def useSpinfulBasis (basis : List (ℕ × ℤ × ℤ)) : List ((ℕ × ℤ × ℤ) × ℕ) :=
  basis.bind fun s => [(s, 0), (s, 1)]

/-- Modelled from the spec: `excitonbasisdim_` records the dimension of
the basis actually built (spinful or not). -/
def excitonbasisdim (nk : ℕ) (vbs cbs : List ℤ) (spinful : Bool) : ℕ :=
  if spinful then (useSpinfulBasis (createBasis nk vbs cbs)).length
  else (createBasis nk vbs cbs).length

lemma length_bind_const {α β : Type} (l : List α) (f : α → List β) (m : ℕ)
    (h : ∀ a ∈ l, (f a).length = m) : (l.bind f).length = l.length * m := by
  induction l with
  | nil => simp
  | cons a as ih =>
    have ha : (f a).length = m := h a (List.mem_cons_self a as)
    have has : ∀ x ∈ as, (f x).length = m := fun x hx => h x (List.mem_cons_of_mem a hx)
    simp [List.cons_bind, ha, ih has, Nat.succ_mul, Nat.add_comm]

/-- C3: the basis has dimension |Mesh| × |valence| × |conduction|, the
spinful basis doubles it, and `excitonbasisdim` records exactly that. -/
theorem createBasis_dim (nk : ℕ) (vbs cbs : List ℤ) (spinful : Bool) :
    (createBasis nk vbs cbs).length = nk * vbs.length * cbs.length ∧
    (useSpinfulBasis (createBasis nk vbs cbs)).length =
      2 * (nk * vbs.length * cbs.length) ∧
    excitonbasisdim nk vbs cbs spinful =
      nk * vbs.length * cbs.length * (if spinful then 2 else 1) := by
  have hinner : ∀ k : ℕ,
      ((fun k => vbs.bind fun v => cbs.map fun c => (k, v, c)) k).length
        = vbs.length * cbs.length := by
    intro k
    exact length_bind_const vbs _ cbs.length (fun v _ => List.length_map _ _)
  have hbase : (createBasis nk vbs cbs).length = nk * (vbs.length * cbs.length) := by
    unfold createBasis
    have := length_bind_const (List.range nk)
      (fun k => vbs.bind fun v => cbs.map fun c => (k, v, c))
      (vbs.length * cbs.length) (fun k _ => hinner k)
    simpa [List.length_range] using this
  have hbase2 : (createBasis nk vbs cbs).length = nk * vbs.length * cbs.length := by
    rw [hbase, Nat.mul_assoc]
  have hspin : (useSpinfulBasis (createBasis nk vbs cbs)).length =
      2 * (nk * vbs.length * cbs.length) := by
    unfold useSpinfulBasis
    have := length_bind_const (createBasis nk vbs cbs)
      (fun s => [(s, 0), (s, 1)]) 2 (fun s _ => rfl)
    rw [this, hbase2, Nat.mul_comm]
  refine ⟨hbase2, hspin, ?_⟩
  cases spinful with
  | false => simp [excitonbasisdim, hbase2]
  | true => simp [excitonbasisdim, hspin, Nat.mul_comm]

/-!
## Diagonalizer (claim C2)

Modelled from the spec: the body of `diagonalize` (`GExciton.hpp:160`) is
not in `src/`, and the dense Hermitian eigensolver it blocks on is an
external library call.  The raw solver output is modelled as a list of
(eigenvalue, eigenvector-column) pairs; per spec 4.6 the routine
"returns eigenvalues in ascending order and eigenvectors as orthonormal
columns", so `diagonalize` orders the eigenpairs by ascending value.
-/

/-- Ascending order on eigenpairs, by eigenvalue. -/
def eigLE (p q : ℚ × List Cplx) : Prop := p.1 ≤ q.1

instance : DecidableRel eigLE := fun p q => inferInstanceAs (Decidable (p.1 ≤ q.1))

instance : IsTotal (ℚ × List Cplx) eigLE := ⟨fun a b => le_total a.1 b.1⟩

instance : IsTrans (ℚ × List Cplx) eigLE := ⟨fun _ _ _ h1 h2 => le_trans h1 h2⟩

/-- Modelled from the spec: `diagonalize` returns the solver eigenpairs
ordered by ascending eigenvalue. -/
def diagonalize (raw : List (ℚ × List Cplx)) : List (ℚ × List Cplx) :=
  List.insertionSort eigLE raw

/-- The columns are orthonormal: each has unit norm and distinct ones are
orthogonal (the entrywise statement of VᴴV = I). -/
def OrthonormalCols (cols : List (List Cplx)) : Prop :=
  (∀ v ∈ cols, cdot v v = 1) ∧ cols.Pairwise (fun u v => cdot u v = 0)

instance (cols : List (List Cplx)) : Decidable (OrthonormalCols cols) :=
  inferInstanceAs (Decidable (_ ∧ _))

/-- C2: on any raw solver output with orthonormal eigenvector columns,
`diagonalize` yields eigenvalues in non-decreasing order and keeps the
columns orthonormal (reordering preserves VᴴV = I). -/
theorem diagonalize_sorted_orthonormal (raw : List (ℚ × List Cplx))
    (h : OrthonormalCols (raw.map Prod.snd)) :
    List.Pairwise eigLE (diagonalize raw) ∧
    OrthonormalCols ((diagonalize raw).map Prod.snd) := by
  have hperm : (diagonalize raw).Perm raw := List.perm_insertionSort eigLE raw
  have hpm : ((diagonalize raw).map Prod.snd).Perm (raw.map Prod.snd) :=
    hperm.map Prod.snd
  refine ⟨List.sorted_insertionSort eigLE raw, ?_, ?_⟩
  · intro v hv
    exact h.1 v (hpm.mem_iff.mp hv)
  · have hsym : ∀ {u v : List Cplx}, cdot u v = 0 → cdot v u = 0 := by
      intro u v h0
      rw [cdot_swap u v, h0, Cplx.conj_zero]
    exact (List.Perm.pairwise_iff hsym hpm.symm).mp h.2

/-- An unsorted two-eigenpair solver output with orthonormal columns. -/
def rawEig : List (ℚ × List Cplx) :=
  [(2, [⟨0, 0⟩, ⟨1, 0⟩]), (1, [⟨1, 0⟩, ⟨0, 0⟩])]

theorem diagonalize_sorted_orthonormal_witness :
    List.Pairwise eigLE (diagonalize rawEig) ∧
    OrthonormalCols ((diagonalize rawEig).map Prod.snd) :=
  diagonalize_sorted_orthonormal rawEig
    (by norm_num [OrthonormalCols, rawEig, cdot, Cplx.eq_iff])

/-!
## MatrixElementEngine (claim C9)

Modelled from the spec: the bodies of `tDirect` (`GExciton.hpp:119`) and
`tExchange` (`GExciton.hpp:124`) are not in `src/`.  Spec 4.4: the
direct element is the cached Fourier-transformed potential times the
conduction- and valence-coefficient overlaps; the exchange element uses
the q=0 Fourier value times cross overlaps; "these routines are pure
functions of their arguments".  Following the C++ signatures, each takes
the cached Fourier value and four Bloch-coefficient vectors.
-/

/-- Modelled from the spec: direct interaction element. -/
def tDirect (ft : Cplx) (cK cK2 vK vK2 : List Cplx) : Cplx :=
  ft * cdot cK cK2 * cdot vK vK2

/-- Modelled from the spec: exchange interaction element, built on the
q=0 Fourier value and cross conduction/valence overlaps. -/
def tExchange (ftX : Cplx) (cK vK cK2 vK2 : List Cplx) : Cplx :=
  ftX * cdot cK vK * cdot vK2 cK2

/-- The GExciton object state visible to the matrix-element routines:
the cached Fourier stack, the q=0 Fourier value and the matrix under
assembly (fields declared at `GExciton.hpp:32` and `GExciton.hpp:37-38`). -/
structure GExcitonState where
  ftStack : List Cplx
  ftX : Cplx
  HBSmat : List (List Cplx)
  deriving DecidableEq

/-- A call of `tDirect` on an object: returns the object state after the
call together with the value. -/
def tDirectCall (s : GExcitonState) (ft : Cplx) (a b c d : List Cplx) :
    GExcitonState × Cplx :=
  (s, tDirect ft a b c d)

/-- A call of `tExchange` on an object. -/
def tExchangeCall (s : GExcitonState) (ft : Cplx) (a b c d : List Cplx) :
    GExcitonState × Cplx :=
  (s, tExchange ft a b c d)

/-- C9: `tDirect` and `tExchange` are pure: the object state (ftStack,
ftX, HBS and all other fields) is unchanged by a call, and two calls with
equal arguments return equal values regardless of the object they run on. -/
theorem tDirect_tExchange_pure (s t : GExcitonState) (ft : Cplx)
    (a b c d : List Cplx) :
    (tDirectCall s ft a b c d).1 = s ∧
    (tExchangeCall s ft a b c d).1 = s ∧
    (tDirectCall s ft a b c d).2 = (tDirectCall t ft a b c d).2 ∧
    (tExchangeCall s ft a b c d).2 = (tExchangeCall t ft a b c d).2 :=
  ⟨rfl, rfl, rfl, rfl⟩

/-!
## PotentialModel error path (claim C6)

Modelled from the spec: the bodies of `STVH0` (`GExciton.hpp:116`),
`potential` (`GExciton.hpp:117`) and the Hamiltonian build that consumes
them are not in `src/`.  Spec 4.2: the Struve H0 function "is evaluated
via a convergent series/asymptotic expansion (bounded iteration count;
fails with ConvergenceError if the expansion does not stabilize within
the iteration budget)"; spec 7: a ConvergenceError "aborts potential
evaluation, propagates as a fatal error for the whole Hamiltonian
build".  The Bessel Y0 factor of the closed form is an external special
function, supplied as a parameter.
-/

/-- The error of spec 7 relevant to the potential evaluation. -/
inductive BSEError where
  | convergenceError
  deriving DecidableEq, Repr

/-- The alternating Struve-series terms: t 0 = x, and each later term
multiplies by −x²/(2k+1)². -/
def sterm (x : ℚ) : ℕ → ℚ
  | 0 => x
  | k + 1 => -(sterm x k) * (x * x) / (((2 * (k + 1) + 1 : ℕ) : ℚ) ^ 2)

/-- Modelled from the spec: the bounded series loop of `STVH0`.  `fuel`
is the remaining iteration budget, `r` the last term, `s` the running
sum, `k` the next term index; the loop stops once the new term is below
the stabilization tolerance and fails once the budget is exhausted. -/
def STVH0go (x2 tol : ℚ) : ℕ → ℚ → ℚ → ℕ → Except BSEError ℚ
  | 0, _, _, _ => .error .convergenceError
  | fuel + 1, r, s, k =>
      let r2 := -r * x2 / (((2 * k + 1 : ℕ) : ℚ) ^ 2)
      if |r2| < tol then .ok (s + r2)
      else STVH0go x2 tol fuel r2 (s + r2) (k + 1)

/-- Modelled from the spec: `STVH0` evaluates the Struve H0 series at
`x` with stabilization tolerance `tol` and iteration budget `budget`. -/
def STVH0 (x tol : ℚ) (budget : ℕ) : Except BSEError ℚ :=
  STVH0go (x * x) tol budget x x 1

/-- The regularized evaluation distance: at r = 0 the potential is
evaluated at the regularization cutoff instead (spec 4.2: "finite and
well-defined at r=0 (regularized)"). -/
def reff (r rcut : ℚ) : ℚ := if r = 0 then rcut else r

/-- Modelled from the spec: `potential` combines the Struve H0 series
with the external Bessel Y0 factor and the Keldysh prefactor; a series
ConvergenceError aborts the evaluation. -/
def potentialM (y0 : ℚ → ℚ) (pref r0 rcut tol : ℚ) (budget : ℕ) (r : ℚ) :
    Except BSEError ℚ :=
  (STVH0 (reff r rcut / r0) tol budget).map
    fun h => pref * (h - y0 (reff r rcut / r0))

/-- Error-propagating map over the sampled distances: the potential
matrix cannot be only partly valid. -/
def mapE (f : ℚ → Except BSEError ℚ) : List ℚ → Except BSEError (List ℚ)
  | [] => .ok []
  | a :: as =>
      match f a with
      | .error e => .error e
      | .ok b =>
          match mapE f as with
          | .error e => .error e
          | .ok bs => .ok (b :: bs)

/-- Modelled from the spec: the Hamiltonian build first evaluates the
potential at every sampled distance, then assembles the BSE matrix from
the resulting kernels; any potential failure is fatal for the build. -/
def buildHBS {n : ℕ} (mk : List ℚ → BSEKernels n) (y0 : ℚ → ℚ)
    (pref r0 rcut tol : ℚ) (budget : ℕ) (rs : List ℚ) :
    Except BSEError (Fin n → Fin n → Cplx) :=
  (mapE (potentialM y0 pref r0 rcut tol budget) rs).map
    fun vs => BShamiltonian (mk vs)

lemma STVH0go_error (x tol : ℚ) (fuel : ℕ) :
    ∀ k s, (∀ j, k + 1 ≤ j → j ≤ k + fuel → ¬ (|sterm x j| < tol)) →
      STVH0go (x * x) tol fuel (sterm x k) s (k + 1) = .error .convergenceError := by
  induction fuel with
  | zero => intro k s _; rfl
  | succ fuel ih =>
    intro k s hns
    have hterm : -(sterm x k) * (x * x) / (((2 * (k + 1) + 1 : ℕ) : ℚ) ^ 2)
        = sterm x (k + 1) := rfl
    have hk1 : ¬ (|sterm x (k + 1)| < tol) :=
      hns (k + 1) (Nat.le_refl _) (by omega)
    show (if |(-(sterm x k) * (x * x) / (((2 * (k + 1) + 1 : ℕ) : ℚ) ^ 2))| < tol
        then Except.ok (s + _) else _) = _
    rw [hterm, if_neg hk1]
    exact ih (k + 1) _ fun j h1 h2 =>
      hns j (Nat.le_of_succ_le h1) (by omega)

lemma STVH0_error (x tol : ℚ) (budget : ℕ)
    (hns : ∀ j, 1 ≤ j → j ≤ budget → ¬ (|sterm x j| < tol)) :
    STVH0 x tol budget = .error .convergenceError := by
  have := STVH0go_error x tol budget 0 x (by simpa using hns)
  simpa [STVH0, sterm] using this

lemma mapE_error (f : ℚ → Except BSEError ℚ) (rs : List ℚ) (r : ℚ)
    (hr : r ∈ rs) (he : f r = .error .convergenceError) :
    mapE f rs = .error .convergenceError := by
  induction rs with
  | nil => cases hr
  | cons a as ih =>
    rcases List.mem_cons.mp hr with h | h
    · subst h
      simp [mapE, he]
    · cases hfa : f a with
      | error e => cases e; simp [mapE, hfa]
      | ok b => simp [mapE, hfa, ih h]

/-- C6: the Struve series loop runs on a bounded iteration budget; when
no term within the budget meets the stabilization tolerance, `STVH0`
fails with ConvergenceError, the potential evaluation at that distance
aborts with the same error, and the error is fatal for the whole
Hamiltonian build. -/
theorem STVH0_failure_aborts_build {n : ℕ} (mk : List ℚ → BSEKernels n)
    (y0 : ℚ → ℚ) (pref r0 rcut tol : ℚ) (budget : ℕ) (rs : List ℚ) (r : ℚ)
    (hr : r ∈ rs)
    (hns : ∀ j, 1 ≤ j → j ≤ budget → ¬ (|sterm (reff r rcut / r0) j| < tol)) :
    STVH0 (reff r rcut / r0) tol budget = .error .convergenceError ∧
    potentialM y0 pref r0 rcut tol budget r = .error .convergenceError ∧
    buildHBS mk y0 pref r0 rcut tol budget rs = .error .convergenceError := by
  have h1 : STVH0 (reff r rcut / r0) tol budget = .error .convergenceError :=
    STVH0_error _ tol budget hns
  have h2 : potentialM y0 pref r0 rcut tol budget r = .error .convergenceError := by
    unfold potentialM
    rw [h1]
    rfl
  refine ⟨h1, h2, ?_⟩
  have h3 : mapE (potentialM y0 pref r0 rcut tol budget) rs
      = .error .convergenceError := mapE_error _ rs r hr h2
  unfold buildHBS
  rw [h3]
  rfl

/-- Trivial kernels over the singleton basis for the C6 witness. -/
def mkTrivial : List ℚ → BSEKernels 1 :=
  fun _ => ⟨fun _ => 0, fun _ _ => 0, fun _ _ => 0⟩

theorem STVH0_failure_aborts_build_witness :
    STVH0 (reff 1 (1 / 100) / 1) (1 / 1000) 0 = .error .convergenceError ∧
    potentialM (fun _ => 0) 1 1 (1 / 100) (1 / 1000) 0 1 = .error .convergenceError ∧
    buildHBS mkTrivial (fun _ => 0) 1 1 (1 / 100) (1 / 1000) 0 [1]
      = .error .convergenceError :=
  STVH0_failure_aborts_build mkTrivial (fun _ => 0) 1 1 (1 / 100) (1 / 1000) 0 [1] 1
    (List.mem_singleton.mpr rfl)
    (fun j h1 h2 => absurd (h1.trans h2) (by norm_num))

/-!
## DegeneracyResolver (claim C7)

Modelled from the spec: the bodies of `fixDegeneracy` (`GExciton.hpp:164`)
and `fixDegeneracyIteration` (`GExciton.hpp:149`) are not in `src/`.
Spec 4.7: the resolver "iteratively refines a subspace rotation ...
stopping early if the off-diagonal residual falls below tolerance.  If
the iteration budget is exhausted without convergence, returns the best
estimate and signals DegeneracyResolutionFailure (non-fatal)."  The
single rotation step (`fixDegeneracyIteration`) and the off-diagonal
residual are parameters of the model.
-/

/-- Outcome tag of the degeneracy resolution: converged, or budget
exhausted with the result returned as unresolved (non-fatal). -/
inductive DegStatus where
  | converged
  | unresolvedDeg
  deriving DecidableEq, Repr

/-- Modelled from the spec: `fixDegeneracy` iterates the rotation step up
to the iteration budget, stopping early once the residual is below
tolerance; on exhaustion it returns the last rotated estimate tagged as
unresolved instead of aborting. -/
def fixDegeneracy {α : Type} (step : α → α) (res : α → ℚ) (tol : ℚ) :
    ℕ → α → α × DegStatus
  | 0, s => if res s < tol then (s, .converged) else (s, .unresolvedDeg)
  | fuel + 1, s =>
      if res s < tol then (s, .converged)
      else fixDegeneracy step res tol fuel (step s)

/-- C7: when every iterate within the budget still has residual at or
above tolerance, `fixDegeneracy` returns the final rotated estimate
(the budget-th iterate) tagged `unresolvedDeg` — a value, not an
exception, so the failure is non-fatal. -/
theorem fixDegeneracy_exhausted {α : Type} (step : α → α) (res : α → ℚ)
    (tol : ℚ) (budget : ℕ) (s0 : α)
    (hns : ∀ k, k ≤ budget → ¬ (res (step^[k] s0) < tol)) :
    fixDegeneracy step res tol budget s0 = (step^[budget] s0, .unresolvedDeg) := by
  induction budget generalizing s0 with
  | zero =>
    have h0 : ¬ (res s0 < tol) := by simpa using hns 0 (Nat.le_refl 0)
    simp [fixDegeneracy, h0]
  | succ fuel ih =>
    have h0 : ¬ (res s0 < tol) := by simpa using hns 0 (Nat.zero_le _)
    have hrec := ih (step s0) fun k hk => by
      have := hns (k + 1) (by omega)
      simpa [Function.iterate_succ_apply] using this
    simp only [fixDegeneracy, h0, if_false, hrec, Function.iterate_succ_apply]

theorem fixDegeneracy_exhausted_witness :
    fixDegeneracy (fun x => x + 1) (fun _ => (1 : ℚ)) 0 2 0
      = ((fun x => x + 1)^[2] (0 : ℚ), DegStatus.unresolvedDeg) :=
  fixDegeneracy_exhausted (fun x => x + 1) (fun _ => (1 : ℚ)) 0 2 0
    (fun k _ => by norm_num)

/-!
## Band-crossing relabeling (claim C8)

Modelled from the spec: the body of `fixBandCrossing` (`GExciton.hpp:144`)
is not in `src/`.  Spec 4.1: when the eigenvector sets of two
neighboring momentum points are compared, bands are relabeled to maximize the
overlap between eigenvectors of corresponding indices (... or greedily
for large ones)".  The model relabels greedily: for each reference band
in order it picks the not-yet-assigned eigenpair of largest squared
overlap magnitude (first maximum on ties).
-/

/-- Squared magnitude of the overlap between two coefficient vectors. -/
def ov2 (u v : List Cplx) : ℚ :=
  (cdot u v).re * (cdot u v).re + (cdot u v).im * (cdot u v).im

/-- Picks a maximal-score element of a list (the first one on ties) and
returns it with the remaining elements. -/
def selectBest {β : Type} (score : β → ℚ) : List β → Option (β × List β)
  | [] => none
  | b :: bs =>
      match selectBest score bs with
      | none => some (b, bs)
      | some (b2, rest) =>
          if score b < score b2 then some (b2, b :: rest) else some (b, bs)

/-- Greedy relabeling loop: one eigenpair is assigned to each reference
band in order. -/
def fbcGo : List (List Cplx) → List (ℚ × List Cplx) → List (ℚ × List Cplx)
  | [], _ => []
  | rf :: rfs, pairs =>
      match selectBest (fun p => ov2 rf p.2) pairs with
      | none => []
      | some (p, rest) => p :: fbcGo rfs rest

/-- Modelled from the spec: `fixBandCrossing` relabels the eigenvalue and
eigenvector arrays of the current momentum point against the reference
eigenvectors of the neighboring one. -/
def fixBandCrossing (ref : List (List Cplx)) (eigval : List ℚ)
    (eigvec : List (List Cplx)) : List ℚ × List (List Cplx) :=
  let assigned := fbcGo ref (eigval.zip eigvec)
  (assigned.map Prod.fst, assigned.map Prod.snd)

lemma selectBest_eq_none {β : Type} (score : β → ℚ) (l : List β)
    (h : selectBest score l = none) : l = [] := by
  cases l with
  | nil => rfl
  | cons b bs =>
    exfalso
    simp only [selectBest] at h
    cases hbs : selectBest score bs with
    | none => rw [hbs] at h; cases h
    | some p =>
      rw [hbs] at h
      by_cases hlt : score b < score p.1 <;> simp [hlt] at h

lemma selectBest_mem {β : Type} (score : β → ℚ) (l : List β) (b2 : β)
    (rest : List β) (h : selectBest score l = some (b2, rest)) : b2 ∈ l := by
  induction l generalizing b2 rest with
  | nil => cases h
  | cons b bs ih =>
    simp only [selectBest] at h
    cases hbs : selectBest score bs with
    | none =>
      rw [hbs] at h
      cases h
      exact List.mem_cons_self _ _
    | some p =>
      obtain ⟨bq, restq⟩ := p
      rw [hbs] at h
      dsimp only at h
      by_cases hlt : score b < score bq
      · rw [if_pos hlt] at h
        cases h
        exact List.mem_cons_of_mem _ (ih b2 restq hbs)
      · rw [if_neg hlt] at h
        cases h
        exact List.mem_cons_self _ _

lemma fbcGo_id (refs : List (List Cplx)) (vals : List ℚ)
    (h : OrthonormalCols refs) (hlen : vals.length = refs.length) :
    fbcGo refs (vals.zip refs) = vals.zip refs := by
  induction refs generalizing vals with
  | nil =>
    simp [fbcGo]
  | cons rf rfs ih =>
    cases vals with
    | nil => cases hlen
    | cons a as =>
      have hself : cdot rf rf = 1 := h.1 rf (List.mem_cons_self _ _)
      have hd : ov2 rf rf = 1 := by
        simp [ov2, hself]
      have hzero : ∀ p ∈ as.zip rfs, ov2 rf p.2 = 0 := by
        intro p hp
        have hmem : p.2 ∈ rfs := (List.mem_zip hp).2
        have := (List.pairwise_cons.mp h.2).1 p.2 hmem
        simp [ov2, this]
      have hsel : selectBest (fun p => ov2 rf p.2) ((a, rf) :: as.zip rfs)
          = some ((a, rf), as.zip rfs) := by
        simp only [selectBest]
        cases hbs : selectBest (fun p => ov2 rf p.2) (as.zip rfs) with
        | none => rfl
        | some q =>
          obtain ⟨⟨qa, qv⟩, qrest⟩ := q
          have hq : (qa, qv) ∈ as.zip rfs :=
            selectBest_mem _ _ (qa, qv) qrest (by rw [hbs])
          have h0 : ov2 rf qv = 0 := hzero (qa, qv) hq
          have hnlt : ¬ (ov2 rf rf < ov2 rf qv) := by
            rw [hd, h0]
            norm_num
          dsimp only
          rw [if_neg hnlt]
      have htail : OrthonormalCols rfs :=
        ⟨fun v hv => h.1 v (List.mem_cons_of_mem _ hv),
          (List.pairwise_cons.mp h.2).2⟩
      have hlen2 : as.length = rfs.length := by
        simpa using hlen
      simp only [List.zip_cons_cons, fbcGo, hsel, ih as htail hlen2]

/-- C8: on two identical (orthonormal) eigenvector sets the greedy
relabeling is the identity: every band keeps its index and the
eigenvalue and eigenvector arrays come back unchanged. -/
theorem fixBandCrossing_identity (ref : List (List Cplx)) (eigval : List ℚ)
    (h : OrthonormalCols ref) (hlen : eigval.length = ref.length) :
    fixBandCrossing ref eigval ref = (eigval, ref) := by
  unfold fixBandCrossing
  rw [fbcGo_id ref eigval h hlen]
  show (List.map Prod.fst (eigval.zip ref), List.map Prod.snd (eigval.zip ref))
      = (eigval, ref)
  rw [List.map_fst_zip eigval ref (le_of_eq hlen),
    List.map_snd_zip eigval ref (le_of_eq hlen.symm)]

/-- Orthonormal 2×2 reference eigenvector set for the C8 witness. -/
def refVecs : List (List Cplx) :=
  [[⟨1, 0⟩, ⟨0, 0⟩], [⟨0, 0⟩, ⟨1, 0⟩]]

theorem fixBandCrossing_identity_witness :
    fixBandCrossing refVecs [3, 5] refVecs = ([3, 5], refVecs) :=
  fixBandCrossing_identity refVecs [3, 5]
    (by norm_num [OrthonormalCols, refVecs, cdot, Cplx.eq_iff]) rfl

/-!
## Default call paths (claim C10)

The default argument values are in `src/`: `GExciton.hpp:159` declares
`BShamiltonian(const arma::imat& basis = {}, bool useApproximation =
true)`, `GExciton.hpp:158` declares `initializeHamiltonian(bool
useApproximation = true)` and `GExciton.hpp:118` declares
`fourierTransform(..., bool useApproximation = true)`.  The
interpretation of the empty default basis is modelled from the spec
(spec 4.5 builds "the full BSEMatrix" over the stored basis; the basis
argument selects a subset when nonempty).
-/

/-- The two matrix-element evaluation modes of spec 4.4. -/
inductive MEMode where
  | approximate
  | exact
  deriving DecidableEq, Repr

/-- The mode selected by the `useApproximation` flag. -/
def modeOf (useApproximation : Bool) : MEMode :=
  if useApproximation then .approximate else .exact

/-- Modelled from the spec: an empty basis argument selects the whole
stored basis; a nonempty one selects that subset. -/
def resolveBasis (stored given : List (ℕ × ℤ × ℤ)) : List (ℕ × ℤ × ℤ) :=
  if given.isEmpty then stored else given

/-- A `BShamiltonian(basis, useApproximation)` call: the pair basis and
matrix-element mode the assembly runs with. -/
def BShamiltonianCall (stored given : List (ℕ × ℤ × ℤ))
    (useApproximation : Bool) : List (ℕ × ℤ × ℤ) × MEMode :=
  (resolveBasis stored given, modeOf useApproximation)

/-- The no-argument call of `BShamiltonian`, with the default argument
values of `GExciton.hpp:159`. -/
def BShamiltonianDefault (stored : List (ℕ × ℤ × ℤ)) :
    List (ℕ × ℤ × ℤ) × MEMode :=
  BShamiltonianCall stored [] true

/-- Modelled from the spec: `initializeHamiltonian` prepares the stacks
and assembles over the whole stored basis in the requested mode. -/
def initializeHamiltonianCall (stored : List (ℕ × ℤ × ℤ))
    (useApproximation : Bool) : List (ℕ × ℤ × ℤ) × MEMode :=
  BShamiltonianCall stored [] useApproximation

/-- The no-argument call of `initializeHamiltonian`, with the default of
`GExciton.hpp:158`. -/
def initializeHamiltonianDefault (stored : List (ℕ × ℤ × ℤ)) :
    List (ℕ × ℤ × ℤ) × MEMode :=
  initializeHamiltonianCall stored true

/-- A `fourierTransform` call: the mode its Bloch-coefficient treatment
runs with. -/
def fourierTransformCall (useApproximation : Bool) : MEMode :=
  modeOf useApproximation

/-- The `fourierTransform` call with the default flag of
`GExciton.hpp:118`. -/
def fourierTransformDefault : MEMode :=
  fourierTransformCall true

/-- C10: calling `BShamiltonian` with no arguments assembles over the
whole stored basis in approximate mode; `initializeHamiltonian` and
`fourierTransform` also default to the approximate mode; the exact mode
is only reached by passing `useApproximation = false` explicitly. -/
theorem default_call_full_basis_approximate (stored : List (ℕ × ℤ × ℤ)) :
    BShamiltonianDefault stored = (stored, MEMode.approximate) ∧
    initializeHamiltonianDefault stored = (stored, MEMode.approximate) ∧
    fourierTransformDefault = MEMode.approximate ∧
    (∀ given u, (BShamiltonianCall stored given u).2 = MEMode.exact → u = false) := by
  refine ⟨rfl, rfl, rfl, ?_⟩
  intro given u hu
  cases u with
  | false => rfl
  | true => cases hu
